import Mathlib

/-!
Verification development for the glob package (glob.go of smlrepo/godo).

The embedding translates the source file into Lean:

* `Globexp` (glob.go:36-103) scans a glob pattern character by character and
  emits a regular-expression pattern anchored with a leading caret and a
  trailing dollar; Go then compiles the emitted pattern with
  `regexp.MustCompile`, which panics when the pattern is not a valid regular
  expression.  We model the scanner as `globLoop` (emitting the exact token
  sequence of the pattern string the source writes) and Go's regexp
  compilation as `parseRegex`, a parser for the RE2 dialect fragment that the
  scanner can emit.  `Globexp` returns `none` exactly when `regexp.MustCompile`
  would panic.
* Regular-expression matching (`regexp.MatchString` on the anchored pattern)
  is modelled with Brzozowski derivatives (`rmatch`): since every emitted
  pattern is anchored `^...$`, Go's substring search coincides with a
  full-string match of the body between the anchors.
* `patternRoot`, `hasMeta` (glob.go:177-213) are direct translations; Go's
  `strings.Split(s, "/")` is `splitSlash` on the character list.
* `Glob` (glob.go:117-166) is modelled with the directory walker
  (`walkFiles`, an external collaborator doing concurrent filesystem I/O)
  as an explicit function parameter `walk`.  The Go map `m` with `nil`
  tombstones is an association list from paths to `Option FileAsset`
  (`none` = tombstone); `util.Panic` calls and returned errors are the
  `GlobError` cases of the `Except` result.  `GlobGen` additionally takes the
  root-inference function as a parameter (instantiated with `patternRoot` in
  `Glob`) so that the dead empty-root branch can be exercised.
-/

/-- Item of a regular-expression character class: a single character, a
character range, or the Perl word class backslash-w = [0-9A-Za-z_]. -/
inductive ClassItem where
  | single (c : Char)
  | range (lo hi : Char)
  | perlW
  deriving DecidableEq

/-- Abstract syntax of the RE2 fragment that `Globexp` can emit.  `anyChar`
is the dot metacharacter (any character except newline, Go default);
`cls neg items` is a (possibly negated) character class. -/
inductive Regex where
  | eps
  | fail
  | lit (c : Char)
  | anyChar
  | cls (neg : Bool) (items : List ClassItem)
  | cat (a b : Regex)
  | alt (a b : Regex)
  | star (a : Regex)
  deriving DecidableEq

/-- Go regexp word character (ASCII): [0-9A-Za-z_]. -/
def isWordChar (c : Char) : Bool :=
  let n := c.toNat
  (48 ≤ n && n ≤ 57) || (65 ≤ n && n ≤ 90) || (97 ≤ n && n ≤ 122) || n == 95

/-- Does a single class item match the character. -/
def itemMatch (c : Char) : ClassItem → Bool
  | .single a => c == a
  | .range lo hi => lo.toNat ≤ c.toNat && c.toNat ≤ hi.toNat
  | .perlW => isWordChar c

/-- Does a (possibly negated) character class match the character. -/
def classMatch (neg : Bool) (items : List ClassItem) (c : Char) : Bool :=
  let b := items.any (itemMatch c)
  if neg then !b else b

/-- Does the regular expression accept the empty string. -/
def nullable : Regex → Bool
  | .eps => true
  | .fail => false
  | .lit _ => false
  | .anyChar => false
  | .cls _ _ => false
  | .cat a b => nullable a && nullable b
  | .alt a b => nullable a || nullable b
  | .star _ => true

/-- Brzozowski derivative of a regular expression by one character. -/
def rderiv : Regex → Char → Regex
  | .eps, _ => .fail
  | .fail, _ => .fail
  | .lit a, c => if c == a then .eps else .fail
  | .anyChar, c => if c == '\n' then .fail else .eps
  | .cls neg items, c => if classMatch neg items c then .eps else .fail
  | .cat a b, c => .alt (.cat (rderiv a c) b) (if nullable a then rderiv b c else .fail)
  | .alt a b, c => .alt (rderiv a c) (rderiv b c)
  | .star a, c => .cat (rderiv a c) (.star a)

/-- Full-string match of a regular expression against a character list. -/
def rmatchL (r : Regex) : List Char → Bool
  | [] => nullable r
  | c :: s => rmatchL (rderiv r c) s

/-- Full-string match against a string.  This models Go's
`re.MatchString path` for the regular expressions built by `Globexp`: those
are always anchored with a caret and a dollar, so Go's substring search
succeeds exactly when the body between the anchors matches the whole string. -/
def rmatch (r : Regex) (s : String) : Bool := rmatchL r s.data

/-- Tokens of the emitted regular-expression pattern.  Each token stands for
the piece of pattern text the Go scanner writes: `esc c` is a backslash
followed by `c`, `lparenNC` is the three characters of a non-capturing group
opener, every other token is a single pattern character. -/
inductive RTok where
  | lit (c : Char)
  | esc (c : Char)
  | dot
  | starOp
  | plusOp
  | pipe
  | lparen
  | lparenNC
  | rparen
  | lbrack
  | rbrack
  | caret
  | dollar
  deriving DecidableEq

/-- Tokenization of the constant zeroOrMoreDirectories (glob.go:21): group
open, non-capturing group open, a class of word characters plus escaped dot
and escaped hyphen, a plus, an escaped slash, group close, star, group
close. -/
def zomDirToks : List RTok :=
  [.lparen, .lparenNC, .lbrack, .esc 'w', .esc '.', .esc '-', .rbrack,
   .plusOp, .esc '/', .rparen, .starOp, .rparen]

/-- Tokenization of the constant anyRune (glob.go:19), the pattern text
[^/]* . -/
def anyRuneToks : List RTok := [.lbrack, .caret, .lit '/', .rbrack, .starOp]

/-- Tokenization of the pattern text .* written for a trailing /** . -/
def dotStarToks : List RTok := [.dot, .starOp]

/-- The characters the scanner escapes (glob.go:49). -/
def escSet : List Char := ['\\', '$', '^', '+', '.', '(', ')', '=', '!', '|']

/-- The scanner loop of `Globexp` (glob.go:42-98).  The boolean argument is
the inGroup flag.  Each arm emits the tokenization of exactly the pattern
text the corresponding source branch writes, and consumes the same number of
input characters (the source advances the byte cursor by the width of the
matched construct). -/
def globLoop : List Char → Bool → List RTok
  | [], _ => []
  | '/' :: '*' :: '*' :: '/' :: rest, g => .lit '/' :: (zomDirToks ++ globLoop rest g)
  | ['/', '*', '*'], _ => .lit '/' :: dotStarToks
  | '?' :: rest, g => .dot :: globLoop rest g
  | '[' :: rest, g => .lbrack :: globLoop rest g
  | ']' :: rest, g => .rbrack :: globLoop rest g
  | '{' :: rest, _ => .lparen :: globLoop rest true
  | '}' :: rest, _ => .rparen :: globLoop rest false
  | ',' :: rest, g => (if g then [.pipe] else [.esc ',']) ++ globLoop rest g
  | '*' :: '*' :: '/' :: rest, g => zomDirToks ++ globLoop rest g
  | '*' :: rest, g => anyRuneToks ++ globLoop rest g
  | c :: rest, g => (if c ∈ escSet then [.esc c] else [.lit c]) ++ globLoop rest g

/-- The full emitted pattern: caret, scanned body, dollar (glob.go:39,100). -/
def globexpTokens (glob : String) : List RTok :=
  .caret :: (globLoop glob.data false ++ [.dollar])

/-- Raw element of a character class before range formation: a character
(flagged when it came escaped, since only an unescaped hyphen can form a
range) or the word class. -/
inductive CElem where
  | ch (c : Char) (escaped : Bool)
  | pw
  deriving DecidableEq

/-- How one emitted token reads inside a character class in Go's syntax:
everything is literal text except escapes; the non-capturing group opener is
its three literal characters. -/
def tokElems : RTok → Option (List CElem)
  | .lit c => some [.ch c false]
  | .esc c => some (if c == 'w' then [.pw] else [.ch c true])
  | .dot => some [.ch '.' false]
  | .starOp => some [.ch '*' false]
  | .plusOp => some [.ch '+' false]
  | .pipe => some [.ch '|' false]
  | .lparen => some [.ch '(' false]
  | .lparenNC => some [.ch '(' false, .ch '?' false, .ch ':' false]
  | .rparen => some [.ch ')' false]
  | .lbrack => some [.ch '[' false]
  | .caret => some [.ch '^' false]
  | .dollar => some [.ch '$' false]
  | .rbrack => none

/-- Collect the elements of a character class up to the closing bracket.
Go (RE2) has no special case for a bracket in first position: an unmatched
open class is a compile error, which surfaces as `none`. -/
def classElems : List RTok → Option (List CElem × List RTok)
  | [] => none
  | .rbrack :: rest => some ([], rest)
  | t :: rest => do
    let e ← tokElems t
    let (es, r) ← classElems rest
    pure (e ++ es, r)

/-- Turn raw class elements into class items, forming a range when an
unescaped hyphen stands between two characters (rejecting a reversed range,
as Go does). -/
def buildItems : List CElem → Option (List ClassItem)
  | [] => some []
  | .ch a _ :: .ch '-' false :: .ch b eb :: rest =>
    if a.toNat ≤ b.toNat then do
      let is ← buildItems (.ch b eb :: rest).tail
      pure (.range a b :: is)
    else none
  | .ch a _ :: rest => do
    let is ← buildItems rest
    pure (.single a :: is)
  | .pw :: rest => do
    let is ← buildItems rest
    pure (.perlW :: is)

/-- Parse a character class after its opening bracket: optional negating
caret, then one or more elements, then the closing bracket.  Go rejects an
empty class. -/
def parseCls (ts : List RTok) : Option (Regex × List RTok) :=
  let (neg, ts1) := match ts with
    | .caret :: r => (true, r)
    | _ => (false, ts)
  match classElems ts1 with
  | some (es, rest) =>
    if es.isEmpty then none
    else match buildItems es with
      | some items => some (.cls neg items, rest)
      | none => none
  | none => none

/-- Apply a postfix repetition operator if one follows the atom.  A plus is
one-or-more: the atom followed by its star. -/
def applyReps (a : Regex) (ts : List RTok) : Regex × List RTok :=
  match ts with
  | .starOp :: rest => (.star a, rest)
  | .plusOp :: rest => (.cat a (.star a), rest)
  | _ => (a, ts)

mutual

/-- Parse an alternation (sequences separated by pipes). -/
def parseAlt : Nat → List RTok → Option (Regex × List RTok)
  | 0, _ => none
  | fuel + 1, ts => do
    let (r, ts1) ← parseSeq fuel ts
    match ts1 with
    | .pipe :: rest => do
      let (r2, ts2) ← parseAlt fuel rest
      pure (Regex.alt r r2, ts2)
    | _ => pure (r, ts1)

/-- Parse a (possibly empty) sequence of atoms with repetition operators,
ending at a pipe, a group close, or the end of input. -/
def parseSeq : Nat → List RTok → Option (Regex × List RTok)
  | 0, _ => none
  | fuel + 1, ts =>
    match ts with
    | [] => some (Regex.eps, [])
    | .pipe :: _ => some (Regex.eps, ts)
    | .rparen :: _ => some (Regex.eps, ts)
    | _ => do
      let (a, ts1) ← parseAtom fuel ts
      let (a2, ts2) := applyReps a ts1
      let (rest, ts3) ← parseSeq fuel ts2
      pure (Regex.cat a2 rest, ts3)

/-- Parse one atom.  A repetition operator with no operand, an unmatched
group close (reached only through a malformed group), or an unterminated
group is a Go compile error (`none`).  A lone closing bracket is a literal
in Go.  The caret and dollar tokens only ever occur as the outer anchors or
inside a class, so they are unreachable here. -/
def parseAtom : Nat → List RTok → Option (Regex × List RTok)
  | 0, _ => none
  | fuel + 1, ts =>
    match ts with
    | .lit c :: r => some (Regex.lit c, r)
    | .esc c :: r => some (if c == 'w' then Regex.cls false [.perlW] else Regex.lit c, r)
    | .dot :: r => some (Regex.anyChar, r)
    | .rbrack :: r => some (Regex.lit ']', r)
    | .lbrack :: r => parseCls r
    | .lparen :: r => parseGroup fuel r
    | .lparenNC :: r => parseGroup fuel r
    | _ => none

/-- Parse the body of a group up to its closing token. -/
def parseGroup : Nat → List RTok → Option (Regex × List RTok)
  | 0, _ => none
  | fuel + 1, ts => do
    let (inner, ts1) ← parseAlt fuel ts
    match ts1 with
    | .rparen :: ts2 => pure (inner, ts2)
    | _ => none

end

/-- Go's `regexp.MustCompile` on the emitted pattern: strip the outer
anchors and parse the body; `none` models the panic on an invalid pattern. -/
def parseRegex (ts : List RTok) : Option Regex :=
  match ts with
  | .caret :: rest =>
    if rest.getLast? = some .dollar then
      match parseAlt (3 * rest.length + 8) rest.dropLast with
      | some (r, []) => some r
      | _ => none
    else none
  | _ => none

/-- Globexp (glob.go:36-103): build the anchored regular-expression pattern
from the glob and compile it.  `none` models the `regexp.MustCompile` panic
on a pattern that is not a valid regular expression. -/
def Globexp (glob : String) : Option Regex :=
  parseRegex (globexpTokens glob)

/-- Go strings.HasPrefix. -/
def strHasPre (s p : String) : Bool := p.data.isPrefixOf s.data

/-- Go s[1:] for a string known to start with the one-byte marker. -/
def strTail (s : String) : String := ⟨s.data.drop 1⟩

/-- hasMeta (glob.go:178-180) on a character list:
strings.IndexAny(path, star question open-bracket open-brace) >= 0. -/
def hasMetaL (cs : List Char) : Bool :=
  cs.any (fun c => c == '*' || c == '?' || c == '[' || c == '{')

/-- hasMeta (glob.go:178-180): does the path contain a character used to
build a regular expression. -/
def hasMeta (path : String) : Bool := hasMetaL path.data

/-- Go strings.Split(s, slash) on the character list: split at every slash,
keeping empty segments; the empty input yields one empty segment. -/
def splitSlash : List Char → List (List Char)
  | [] => [[]]
  | c :: cs =>
    if c = '/' then [] :: splitSlash cs
    else match splitSlash cs with
      | [] => [[c]]
      | p :: ps => (c :: p) :: ps

/-- The accumulation loop of patternRoot (glob.go:195-207): walk the
segments, stop at the first one containing a metacharacter, otherwise
append it to the root (a still-empty root is replaced instead of extended
with a slash). -/
def rootLoop : List (List Char) → List Char → List Char
  | [], root => root
  | part :: ps, root =>
    if hasMetaL part then root
    else rootLoop ps (if root = [] then part else root ++ '/' :: part)

/-- patternRoot (glob.go:182-213): the walk root inferred from a pattern.
A negation pattern has no root; a pattern without a slash roots at the
current directory "./"; otherwise the loop accumulates the leading literal
segments of all but the last segment, defaulting to "." when it accumulated
nothing. -/
def patternRoot (s : String) : String :=
  if strHasPre s "!" then ""
  else
    let parts := splitSlash s.data
    if parts.length = 1 then "./"
    else
      let root := rootLoop parts.dropLast []
      if root = [] then "." else ⟨root⟩

/-- FileAsset (glob.go:169-175).  The embedded os.FileInfo metadata is
opaque to the resolution algorithm and is omitted. -/
structure FileAsset where
  Path : String
  PatternRoot : String
  deriving DecidableEq

/-- RegexpInfo (glob.go:29-32): a compiled regular expression plus the
negation flag. -/
structure RegexpInfo where
  Regexp : Regex
  Negate : Bool := false
  deriving DecidableEq

/-- The ways a Glob run can abort: the regexp.MustCompile panic inside
Globexp, the util.Panic on an empty root (glob.go:139), and a fatal walk
error returned to the caller (glob.go:143). -/
inductive GlobError where
  | compilePanic (pattern : String)
  | rootPanic (pattern : String)
  | walkError (msg : String)
  deriving DecidableEq

/-- The accumulated state of a Glob run: the map m from paths to entries
(`none` is the nil tombstone left by a negation) and the collected
RegexpInfo list.  The map is an association list with unique keys; Go map
iteration order is unspecified, and no theorem below depends on the list
order. -/
structure GlobState where
  m : List (String × Option FileAsset)
  regexps : List RegexpInfo
  deriving DecidableEq

/-- Insert-or-replace for the association list modelling the Go map. -/
def mapInsert : List (String × Option FileAsset) → String → Option FileAsset →
    List (String × Option FileAsset)
  | [], k, v => [(k, v)]
  | (k1, v1) :: rest, k, v =>
    if k1 = k then (k, v) :: rest else (k1, v1) :: mapInsert rest k v

/-- Lookup in the association list modelling the Go map. -/
def mapLookup : List (String × Option FileAsset) → String → Option (Option FileAsset)
  | [], _ => none
  | (k1, v1) :: rest, k => if k1 = k then some v1 else mapLookup rest k

/-- The negation removal loop (glob.go:129-133): every currently-present
key whose path matches the regular expression is set to nil. -/
def removeMatches (re : Regex) (m : List (String × Option FileAsset)) :
    List (String × Option FileAsset) :=
  m.map (fun e => if rmatch re e.1 then (e.1, none) else e)

/-- The insertion loop (glob.go:146-153): every walked file whose path
matches the regular expression is stored under its path, with the pattern
root recorded on the stored copy. -/
def insertMatches (re : Regex) (root : String) (m : List (String × Option FileAsset))
    (fileAssets : List FileAsset) : List (String × Option FileAsset) :=
  fileAssets.foldl
    (fun m file =>
      if rmatch re file.Path then mapInsert m file.Path (some { file with PatternRoot := root })
      else m)
    m

/-- One iteration of the pattern loop of Glob (glob.go:123-155),
generalized over the root-inference function (Glob uses `patternRoot`; the
generalization makes the otherwise-unreachable empty-root branch
exercisable).  A negation pattern is stripped, compiled, recorded with
Negate true and applied as a removal; any other pattern is compiled,
recorded, its root inferred (empty root is the util.Panic at glob.go:139),
the root walked, and the matching walked files inserted. -/
def globStepGen (rootFn : String → String) (walk : String → Except String (List FileAsset))
    (st : GlobState) (pattern : String) : Except GlobError GlobState :=
  if strHasPre pattern "!" then
    let pattern := strTail pattern
    match Globexp pattern with
    | none => .error (.compilePanic pattern)
    | some re =>
      .ok { m := removeMatches re st.m,
            regexps := st.regexps ++ [{ Regexp := re, Negate := true }] }
  else
    match Globexp pattern with
    | none => .error (.compilePanic pattern)
    | some re =>
      let regexps := st.regexps ++ [{ Regexp := re }]
      let root := rootFn pattern
      if root = "" then .error (.rootPanic pattern)
      else
        match walk root with
        | .error e => .error (.walkError e)
        | .ok fileAssets =>
          .ok { m := insertMatches re root st.m fileAssets, regexps := regexps }

/-- The pattern loop of Glob over a pattern list. -/
def globSteps (rootFn : String → String) (walk : String → Except String (List FileAsset))
    (patterns : List String) (st : GlobState) : Except GlobError GlobState :=
  patterns.foldlM (globStepGen rootFn walk) st

/-- The final collection loop of Glob (glob.go:158-163): the non-nil
entries of the map. -/
def collectKeys (m : List (String × Option FileAsset)) : List FileAsset :=
  m.filterMap (fun e => e.2)

/-- Glob (glob.go:117-166) generalized over the root-inference function:
process the patterns in order from an empty map, then return the non-nil
entries and all compiled matchers. -/
def GlobGen (rootFn : String → String) (walk : String → Except String (List FileAsset))
    (patterns : List String) : Except GlobError (List FileAsset × List RegexpInfo) :=
  match globSteps rootFn walk patterns { m := [], regexps := [] } with
  | .error e => .error e
  | .ok st => .ok (collectKeys st.m, st.regexps)

/-- One iteration of the pattern loop of Glob with the real root inference. -/
def globStep (walk : String → Except String (List FileAsset)) (st : GlobState)
    (pattern : String) : Except GlobError GlobState :=
  globStepGen patternRoot walk st pattern

/-- Glob (glob.go:117-166): resolve the patterns against the filesystem
reachable through `walk` (the walkFiles collaborator, glob.go:217-233). -/
def Glob (walk : String → Except String (List FileAsset)) (patterns : List String) :
    Except GlobError (List FileAsset × List RegexpInfo) :=
  GlobGen patternRoot walk patterns

/-- Left fold of segments onto a root with slash separators; with the first
segment as the seed this is exactly a slash-joined path. -/
def joinFromL (root : List Char) (l : List (List Char)) : List Char :=
  l.foldl (fun r p => r ++ '/' :: p) root

/-- The slash-join of a non-empty list of segments, empty for no segments;
this is the phrase "the slash-joined accumulation" read literally. -/
def joinSlash : List (List Char) → List Char
  | [] => []
  | q :: qs => joinFromL q qs

/-- Modelled from the claim's words (spec section 4.2): split the pattern
on slashes, take segments up to the first one containing a metacharacter,
return their slash-joined accumulation, with "." when the very first
segment already contains a metacharacter, "./" for a pattern with no slash
and the empty string for a negation. -/
def specRootClaim (s : String) : String :=
  if strHasPre s "!" then ""
  else
    let parts := splitSlash s.data
    if parts.length = 1 then "./"
    else
      let pre := parts.takeWhile (fun p => !hasMetaL p)
      if pre.isEmpty then "." else ⟨joinSlash pre⟩

/-- The root inference the code actually performs, stated declaratively:
like the claim, but only the segments before the last one are considered,
empty segments before the first non-empty literal segment are dropped, and
"." is returned whenever nothing was accumulated. -/
def inferRootAmended (s : String) : String :=
  if strHasPre s "!" then ""
  else
    let parts := splitSlash s.data
    if parts.length = 1 then "./"
    else
      match (parts.dropLast.takeWhile (fun p => !hasMetaL p)).dropWhile List.isEmpty with
      | [] => "."
      | q :: qs => ⟨joinFromL q qs⟩

/-- Key-value coherence of the result map: a present entry records its own
key as its path.  Every map the pattern loop builds satisfies it. -/
def PathInv (m : List (String × Option FileAsset)) : Prop :=
  ∀ k a, (k, some a) ∈ m → a.Path = k

/-- The part of the compiled form of *.go before the trailing literals: the
negated class of the path separator. -/
def clsNoSlash : Regex := .cls true [.single '/']

/-- The trailing literals of the compiled form of *.go (the dot is emitted
escaped, hence a literal). -/
def tailDotGo : Regex := .cat (.lit '.') (.cat (.lit 'g') (.cat (.lit 'o') .eps))

/-- The character class of the zeroOrMoreDirectories constant: word
characters, dot and hyphen. -/
def clsWDH : Regex := .cls false [.perlW, .single '.', .single '-']

/-- A one-file filesystem for concrete runs: walking "./" finds x.go. -/
def walkXgo : String → Except String (List FileAsset) := fun root =>
  if root = "./" then .ok [{ Path := "x.go", PatternRoot := "" }] else .ok []

/-- A one-file filesystem for concrete runs: walking "vendor" finds
vendor/keep.go. -/
def walkVendorTree : String → Except String (List FileAsset) := fun root =>
  if root = "vendor" then .ok [{ Path := "vendor/keep.go", PatternRoot := "" }] else .ok []

/-- A two-file filesystem for concrete runs: walking "./" finds x.go and
main.go. -/
def walkTwoFiles : String → Except String (List FileAsset) := fun root =>
  if root = "./" then
    .ok [{ Path := "x.go", PatternRoot := "" }, { Path := "main.go", PatternRoot := "" }]
  else .ok []

/-- An empty filesystem. -/
def walkEmptyFS : String → Except String (List FileAsset) := fun _ => .ok []

/-- A root-inference stub that always fails to produce a root, exercising
the empty-root branch of the pattern loop. -/
def rootFnEmpty : String → String := fun _ => ""

/-- A concrete accumulated state with two present entries. -/
def stDemo : GlobState :=
  { m := [("vendor/a.go", some { Path := "vendor/a.go", PatternRoot := "./" }),
          ("main.go", some { Path := "main.go", PatternRoot := "./" })],
    regexps := [] }

/-! General lemmas about the derivative matcher. -/

theorem rmatchL_nil (r : Regex) : rmatchL r [] = nullable r := rfl

theorem rmatchL_cons (r : Regex) (c : Char) (s : List Char) :
    rmatchL r (c :: s) = rmatchL (rderiv r c) s := rfl

theorem rmatchL_fail (s : List Char) : rmatchL .fail s = false := by
  induction s with
  | nil => rfl
  | cons c s ih => simpa [rmatchL, rderiv] using ih

theorem rmatchL_alt (s : List Char) (a b : Regex) :
    rmatchL (.alt a b) s = (rmatchL a s || rmatchL b s) := by
  induction s generalizing a b with
  | nil => simp [rmatchL, nullable]
  | cons c s ih => simp [rmatchL, rderiv, ih]

theorem rmatchL_cat_void (a b : Regex) (ha : ∀ t, rmatchL a t = false) (s : List Char) :
    rmatchL (.cat a b) s = false := by
  induction s generalizing a with
  | nil =>
    have : nullable a = false := ha []
    simp [rmatchL, nullable, this]
  | cons c s ih =>
    have hna : nullable a = false := ha []
    have hda : ∀ t, rmatchL (rderiv a c) t = false := fun t => ha (c :: t)
    simp [rmatchL, rderiv, hna, rmatchL_alt, rmatchL_fail, ih _ hda]

theorem rmatchL_cat_eps (b : Regex) (s : List Char) :
    rmatchL (.cat .eps b) s = rmatchL b s := by
  cases s with
  | nil => simp [rmatchL, nullable]
  | cons c s =>
    have hv : ∀ t, rmatchL (Regex.fail) t = false := rmatchL_fail
    simp [rmatchL, rderiv, nullable, rmatchL_alt, rmatchL_cat_void _ _ hv]

theorem rmatchL_cat_congr (a a2 b : Regex) (h : ∀ t, rmatchL a t = rmatchL a2 t)
    (s : List Char) : rmatchL (.cat a b) s = rmatchL (.cat a2 b) s := by
  induction s generalizing a a2 with
  | nil =>
    have : nullable a = nullable a2 := h []
    simp [rmatchL, nullable, this]
  | cons c s ih =>
    have hn : nullable a = nullable a2 := h []
    have hd : ∀ t, rmatchL (rderiv a c) t = rmatchL (rderiv a2 c) t := fun t => h (c :: t)
    simp [rmatchL, rderiv, hn, rmatchL_alt, ih _ _ hd]

/-- Does the regular expression reject the character everywhere: no string
of its language can contain it.  Syntactic, hence decidable on a concrete
regular expression. -/
def rejectsChar (c : Char) : Regex → Bool
  | .eps => true
  | .fail => true
  | .lit a => !(c == a)
  | .anyChar => c == '\n'
  | .cls neg items => !(classMatch neg items c)
  | .cat a b => rejectsChar c a && rejectsChar c b
  | .alt a b => rejectsChar c a && rejectsChar c b
  | .star a => rejectsChar c a

theorem rejectsChar_void (c : Char) (r : Regex) (h : rejectsChar c r = true) :
    ∀ s, rmatchL (rderiv r c) s = false := by
  induction r with
  | eps => intro s; simp [rderiv, rmatchL_fail]
  | fail => intro s; simp [rderiv, rmatchL_fail]
  | lit a =>
    intro s
    simp only [rejectsChar, Bool.not_eq_true'] at h
    simp [rderiv, h, rmatchL_fail]
  | anyChar =>
    intro s
    simp only [rejectsChar] at h
    simp [rderiv, h, rmatchL_fail]
  | cls neg items =>
    intro s
    simp only [rejectsChar, Bool.not_eq_true'] at h
    simp [rderiv, h, rmatchL_fail]
  | cat a b iha ihb =>
    intro s
    simp only [rejectsChar, Bool.and_eq_true] at h
    have hva := iha h.1
    have hvb := ihb h.2
    cases hn : nullable a with
    | false => simp [rderiv, hn, rmatchL_alt, rmatchL_fail, rmatchL_cat_void _ _ hva]
    | true => simp [rderiv, hn, rmatchL_alt, rmatchL_cat_void _ _ hva, hvb]
  | alt a b iha ihb =>
    intro s
    simp only [rejectsChar, Bool.and_eq_true] at h
    simp [rderiv, rmatchL_alt, iha h.1, ihb h.2]
  | star a iha =>
    intro s
    simp only [rejectsChar] at h
    simp [rderiv, rmatchL_cat_void _ _ (iha h)]

theorem rejectsChar_rderiv (c a : Char) (r : Regex) (h : rejectsChar c r = true) :
    rejectsChar c (rderiv r a) = true := by
  induction r with
  | eps => simp [rderiv, rejectsChar]
  | fail => simp [rderiv, rejectsChar]
  | lit b =>
    by_cases hc : a == b <;> simp [rderiv, hc, rejectsChar]
  | anyChar =>
    by_cases hc : a == '\n' <;> simp [rderiv, hc, rejectsChar]
  | cls neg items =>
    by_cases hc : classMatch neg items a <;> simp [rderiv, hc, rejectsChar]
  | cat p q ihp ihq =>
    simp only [rejectsChar, Bool.and_eq_true] at h
    cases hn : nullable p with
    | false => simp [rderiv, hn, rejectsChar, ihp h.1, h.1, h.2]
    | true => simp [rderiv, hn, rejectsChar, ihp h.1, ihq h.2, h.1, h.2]
  | alt p q ihp ihq =>
    simp only [rejectsChar, Bool.and_eq_true] at h
    simp [rderiv, rejectsChar, ihp h.1, ihq h.2]
  | star p ihp =>
    simp only [rejectsChar] at h
    simp [rderiv, rejectsChar, ihp h, h]

/-- A matched string contains no character the regular expression rejects
everywhere. -/
theorem rejectsChar_not_mem (c : Char) (r : Regex) (s : List Char)
    (hr : rejectsChar c r = true) (hm : rmatchL r s = true) : c ∉ s := by
  induction s generalizing r with
  | nil => simp
  | cons a s ih =>
    by_cases hca : c = a
    · subst hca
      rw [rmatchL_cons, rejectsChar_void c r hr] at hm
      exact absurd hm (by simp)
    · rw [rmatchL_cons] at hm
      have := ih (rderiv r a) (rejectsChar_rderiv c a r hr) hm
      simp [hca, this]


/-! Lemmas about the result map and the pattern loop. -/

theorem mapLookup_insert_self (m : List (String × Option FileAsset)) (k : String)
    (v : Option FileAsset) : mapLookup (mapInsert m k v) k = some v := by
  induction m with
  | nil => simp [mapInsert, mapLookup]
  | cons e rest ih =>
    obtain ⟨k1, v1⟩ := e
    by_cases h : k1 = k
    · simp [mapInsert, h, mapLookup]
    · simp [mapInsert, h, mapLookup, ih]

theorem mapLookup_insert_other (m : List (String × Option FileAsset)) (k k1 : String)
    (v : Option FileAsset) (h : k ≠ k1) :
    mapLookup (mapInsert m k v) k1 = mapLookup m k1 := by
  induction m with
  | nil => simp [mapInsert, mapLookup, h]
  | cons e rest ih =>
    obtain ⟨k2, v2⟩ := e
    by_cases h1 : k2 = k
    · simp [mapInsert, h1, mapLookup, h]
    · simp [mapInsert, h1, mapLookup, ih]

theorem mapLookup_mem (m : List (String × Option FileAsset)) (k : String)
    (v : Option FileAsset) (h : mapLookup m k = some v) : (k, v) ∈ m := by
  induction m with
  | nil => simp [mapLookup] at h
  | cons e rest ih =>
    obtain ⟨k1, v1⟩ := e
    by_cases h1 : k1 = k
    · subst h1
      simp [mapLookup] at h
      subst h
      exact List.mem_cons_self _ _
    · simp only [mapLookup, h1, if_neg h1] at h
      exact List.mem_cons_of_mem _ (ih h)

theorem mem_collectKeys (m : List (String × Option FileAsset)) (k : String) (v : FileAsset)
    (h : (k, some v) ∈ m) : v ∈ collectKeys m := by
  simp only [collectKeys, List.mem_filterMap]
  exact ⟨(k, some v), h, rfl⟩

theorem collectKeys_mem (m : List (String × Option FileAsset)) (v : FileAsset)
    (h : v ∈ collectKeys m) : ∃ k, (k, some v) ∈ m := by
  simp only [collectKeys, List.mem_filterMap] at h
  obtain ⟨⟨k, v1⟩, hm, hv⟩ := h
  cases v1 with
  | none => simp at hv
  | some w => simp at hv; subst hv; exact ⟨k, hm⟩

theorem mem_removeMatches (re : Regex) (m : List (String × Option FileAsset))
    (k : String) (a : FileAsset) (h : (k, some a) ∈ removeMatches re m) :
    (k, some a) ∈ m ∧ rmatch re k = false := by
  simp only [removeMatches, List.mem_map] at h
  obtain ⟨e, he, heq⟩ := h
  by_cases hm : rmatch re e.1
  · simp [hm] at heq
  · rw [if_neg hm] at heq
    subst heq
    exact ⟨he, by simpa using hm⟩

theorem pathInv_nil : PathInv [] := by intro k a h; simp at h

theorem pathInv_mapInsert (m : List (String × Option FileAsset)) (k : String)
    (v : Option FileAsset) (hm : PathInv m) (hv : ∀ a, v = some a → a.Path = k) :
    PathInv (mapInsert m k v) := by
  induction m with
  | nil =>
    intro k1 a h
    simp only [mapInsert, List.mem_singleton, Prod.mk.injEq] at h
    exact h.1 ▸ hv a h.2.symm
  | cons e rest ih =>
    obtain ⟨k2, v2⟩ := e
    have hmr : PathInv rest := fun k1 a h => hm k1 a (List.mem_cons_of_mem _ h)
    by_cases h1 : k2 = k
    · intro k1 a h
      simp only [mapInsert, if_pos h1] at h
      rcases List.mem_cons.mp h with h | h
      · obtain ⟨hk, hvv⟩ := Prod.mk.injEq .. ▸ h
        exact hk ▸ hv a hvv.symm
      · exact hmr k1 a h
    · intro k1 a h
      simp only [mapInsert, if_neg h1] at h
      rcases List.mem_cons.mp h with h | h
      · exact hm k1 a (h ▸ List.mem_cons_self _ _)
      · exact ih hmr k1 a h

theorem pathInv_removeMatches (re : Regex) (m : List (String × Option FileAsset))
    (hm : PathInv m) : PathInv (removeMatches re m) := by
  intro k a h
  exact hm k a (mem_removeMatches re m k a h).1

theorem pathInv_insertMatches (re : Regex) (root : String)
    (m : List (String × Option FileAsset)) (l : List FileAsset) (hm : PathInv m) :
    PathInv (insertMatches re root m l) := by
  induction l generalizing m with
  | nil => exact hm
  | cons f fs ih =>
    simp only [insertMatches, List.foldl_cons]
    by_cases hf : rmatch re f.Path
    · rw [if_pos hf]
      exact ih _ (pathInv_mapInsert _ _ _ hm (by intro a ha; cases ha; rfl))
    · rw [if_neg hf]
      exact ih _ hm

/-- Equation for the pattern-loop step on a negation pattern
(glob.go:124-133). -/
theorem globStepGen_neg (rootFn : String → String)
    (walk : String → Except String (List FileAsset)) (st : GlobState) (p : String)
    (re : Regex) (hb : strHasPre p "!" = true) (hc : Globexp (strTail p) = some re) :
    globStepGen rootFn walk st p =
      .ok { m := removeMatches re st.m,
            regexps := st.regexps ++ [{ Regexp := re, Negate := true }] } := by
  simp [globStepGen, hb, hc]

/-- Equation for the pattern-loop step on an inclusion pattern whose root
inference and walk both succeed (glob.go:134-154). -/
theorem globStepGen_pos (rootFn : String → String)
    (walk : String → Except String (List FileAsset)) (st : GlobState) (p : String)
    (re : Regex) (fileAssets : List FileAsset) (hb : strHasPre p "!" = false)
    (hc : Globexp p = some re) (hr : rootFn p ≠ "")
    (hw : walk (rootFn p) = .ok fileAssets) :
    globStepGen rootFn walk st p =
      .ok { m := insertMatches re (rootFn p) st.m fileAssets,
            regexps := st.regexps ++ [{ Regexp := re, Negate := false }] } := by
  simp [globStepGen, hb, hc, hr, hw]

theorem pathInv_globStepGen (rootFn : String → String)
    (walk : String → Except String (List FileAsset)) (st st1 : GlobState) (p : String)
    (hm : PathInv st.m) (h : globStepGen rootFn walk st p = .ok st1) : PathInv st1.m := by
  cases hb : strHasPre p "!" with
  | true =>
    cases hc : Globexp (strTail p) with
    | none => simp [globStepGen, hb, hc] at h
    | some re =>
      rw [globStepGen_neg rootFn walk st p re hb hc] at h
      simp only [Except.ok.injEq] at h
      subst h
      exact pathInv_removeMatches re st.m hm
  | false =>
    cases hc : Globexp p with
    | none => simp [globStepGen, hb, hc] at h
    | some re =>
      by_cases hr : rootFn p = ""
      · simp [globStepGen, hb, hc, hr] at h
      · cases hw : walk (rootFn p) with
        | error e => simp [globStepGen, hb, hc, hr, hw] at h
        | ok fileAssets =>
          rw [globStepGen_pos rootFn walk st p re fileAssets hb hc hr hw] at h
          simp only [Except.ok.injEq] at h
          subst h
          exact pathInv_insertMatches re (rootFn p) st.m fileAssets hm

theorem globSteps_nil (rootFn : String → String)
    (walk : String → Except String (List FileAsset)) (st : GlobState) :
    globSteps rootFn walk [] st = .ok st := rfl

theorem globSteps_cons (rootFn : String → String)
    (walk : String → Except String (List FileAsset)) (p : String) (ps : List String)
    (st : GlobState) :
    globSteps rootFn walk (p :: ps) st =
      (globStepGen rootFn walk st p).bind (fun st1 => globSteps rootFn walk ps st1) := by
  simp only [globSteps, List.foldlM]
  cases globStepGen rootFn walk st p <;> simp [Except.bind, Bind.bind]

theorem globSteps_append (rootFn : String → String)
    (walk : String → Except String (List FileAsset)) (l1 l2 : List String)
    (st : GlobState) :
    globSteps rootFn walk (l1 ++ l2) st =
      (globSteps rootFn walk l1 st).bind (fun st1 => globSteps rootFn walk l2 st1) := by
  induction l1 generalizing st with
  | nil => simp [globSteps_nil, Except.bind]
  | cons p ps ih =>
    rw [List.cons_append, globSteps_cons, globSteps_cons]
    cases globStepGen rootFn walk st p with
    | error e => simp [Except.bind]
    | ok st1 => simp [Except.bind, ih]

theorem pathInv_globSteps (rootFn : String → String)
    (walk : String → Except String (List FileAsset)) (ps : List String) (st st1 : GlobState)
    (hm : PathInv st.m) (h : globSteps rootFn walk ps st = .ok st1) : PathInv st1.m := by
  induction ps generalizing st with
  | nil => rw [globSteps_nil] at h; simp only [Except.ok.injEq] at h; subst h; exact hm
  | cons p rest ih =>
    rw [globSteps_cons] at h
    cases hs : globStepGen rootFn walk st p with
    | error e => rw [hs] at h; simp [Except.bind] at h
    | ok st2 =>
      rw [hs] at h
      simp only [Except.bind] at h
      exact ih st2 (pathInv_globStepGen rootFn walk st st2 p hm hs) h

/-- One insertion step keeps a present key present: the step either leaves
the map alone, replaces some other key, or overwrites this key with a
present entry again. -/
theorem insertMatches_preserves_present (re : Regex) (root : String) (k : String)
    (l : List FileAsset) (m : List (String × Option FileAsset))
    (h : ∃ v, mapLookup m k = some (some v)) :
    ∃ v, mapLookup (insertMatches re root m l) k = some (some v) := by
  induction l generalizing m with
  | nil => exact h
  | cons f fs ih =>
    simp only [insertMatches, List.foldl_cons]
    by_cases hf : rmatch re f.Path
    · rw [if_pos hf]
      by_cases hk : f.Path = k
      · subst hk
        exact ih _ ⟨_, mapLookup_insert_self ..⟩
      · refine ih _ ?_
        rw [mapLookup_insert_other _ _ _ _ hk]
        exact h
    · rw [if_neg hf]
      exact ih _ h

/-- A walked file that matches the pattern is present in the map after the
insertion loop. -/
theorem insertMatches_present (re : Regex) (root : String) (a : FileAsset)
    (l : List FileAsset) (m : List (String × Option FileAsset)) (ha : a ∈ l)
    (hm : rmatch re a.Path = true) :
    ∃ v, mapLookup (insertMatches re root m l) a.Path = some (some v) := by
  induction l generalizing m with
  | nil => simp at ha
  | cons f fs ih =>
    simp only [insertMatches, List.foldl_cons]
    rcases List.mem_cons.mp ha with rfl | ha
    · rw [if_pos hm]
      exact insertMatches_preserves_present re root a.Path fs _
        ⟨_, mapLookup_insert_self ..⟩
    · exact ih _ ha

/-! Lemmas about patternRoot. -/

theorem joinFromL_ne_nil (root : List Char) (l : List (List Char)) (h : root ≠ []) :
    joinFromL root l ≠ [] := by
  induction l generalizing root with
  | nil => exact h
  | cons p ps ih =>
    simp only [joinFromL, List.foldl_cons]
    exact ih _ (by simp)

theorem rootLoop_join (ps : List (List Char)) (root : List Char) (h : root ≠ []) :
    rootLoop ps root = joinFromL root (ps.takeWhile (fun p => !hasMetaL p)) := by
  induction ps generalizing root with
  | nil => simp [rootLoop, joinFromL]
  | cons p ps ih =>
    simp only [rootLoop]
    by_cases hm : hasMetaL p
    · rw [if_pos hm]
      simp [List.takeWhile_cons, hm, joinFromL]
    · rw [if_neg hm, if_neg h, ih _ (by simp)]
      simp [List.takeWhile_cons, hm, joinFromL]

theorem rootLoop_nil_eq (ps : List (List Char)) :
    rootLoop ps [] =
      (match (ps.takeWhile (fun p => !hasMetaL p)).dropWhile List.isEmpty with
        | [] => []
        | q :: qs => joinFromL q qs) := by
  induction ps with
  | nil => simp [rootLoop]
  | cons p ps ih =>
    simp only [rootLoop]
    by_cases hm : hasMetaL p
    · rw [if_pos hm]
      simp [List.takeWhile_cons, hm]
    · by_cases hp : p = []
      · subst hp
        simp [hm, List.takeWhile_cons, List.dropWhile_cons, ih]
      · have hpe : p.isEmpty = false := by
          cases p with
          | nil => exact absurd rfl hp
          | cons c cs => rfl
        simp [hm, List.takeWhile_cons, List.dropWhile_cons, hpe, rootLoop_join _ _ hp]

/-- For a pattern without the negation marker, patternRoot always returns a
non-empty string: "./", ".", or a slash-joined non-empty prefix. -/
theorem patternRoot_nonempty (p : String) (h : strHasPre p "!" = false) :
    patternRoot p ≠ "" := by
  unfold patternRoot
  rw [if_neg (by simp [h])]
  by_cases h1 : (splitSlash p.data).length = 1
  · rw [if_pos h1]
    intro hcon
    exact absurd (congrArg String.data hcon) (by simp)
  · rw [if_neg h1]
    by_cases h2 : rootLoop (splitSlash p.data).dropLast [] = []
    · rw [if_pos h2]
      intro hcon
      exact absurd (congrArg String.data hcon) (by simp)
    · rw [if_neg h2]
      intro hcon
      exact h2 (by simpa using congrArg String.data hcon)

/-- A single step of the pattern loop with the real root inference never
reaches the empty-root branch. -/
theorem globStepGen_no_rootPanic (walk : String → Except String (List FileAsset))
    (st : GlobState) (p q : String) :
    globStepGen patternRoot walk st p ≠ .error (.rootPanic q) := by
  cases hb : strHasPre p "!" with
  | true =>
    cases hc : Globexp (strTail p) with
    | none => simp [globStepGen, hb, hc]
    | some re => simp [globStepGen, hb, hc]
  | false =>
    cases hc : Globexp p with
    | none => simp [globStepGen, hb, hc]
    | some re =>
      have hr := patternRoot_nonempty p hb
      cases hw : walk (patternRoot p) with
      | error e => simp [globStepGen, hb, hc, hr, hw]
      | ok fileAssets => simp [globStepGen, hb, hc, hr, hw]

theorem globSteps_no_rootPanic (walk : String → Except String (List FileAsset))
    (ps : List String) (st : GlobState) (q : String) :
    globSteps patternRoot walk ps st ≠ .error (.rootPanic q) := by
  induction ps generalizing st with
  | nil => simp [globSteps_nil]
  | cons p rest ih =>
    rw [globSteps_cons]
    cases hs : globStepGen patternRoot walk st p with
    | error e =>
      simp only [Except.bind]
      intro hcon
      rw [Except.error.injEq] at hcon
      exact globStepGen_no_rootPanic walk st p q (hcon ▸ hs)
    | ok st1 =>
      simp only [Except.bind]
      exact ih st1

/-- The first element surviving a dropWhile falsifies the predicate. -/
theorem dropWhileHeadFalse {a : Type} (pr : a → Bool) (l : List a) (q : a) (qs : List a)
    (h : l.dropWhile pr = q :: qs) : pr q = false := by
  induction l with
  | nil => simp [List.dropWhile] at h
  | cons x l ih =>
    rw [List.dropWhile_cons] at h
    by_cases hx : pr x
    · rw [if_pos hx] at h
      exact ih h
    · rw [if_neg hx] at h
      injection h with h1 h2
      subst h1
      simpa using hx

theorem patternRoot_eq_inferRootAmended (p : String) :
    patternRoot p = inferRootAmended p := by
  unfold patternRoot inferRootAmended
  cases hb : strHasPre p "!" with
  | true => rfl
  | false =>
    rw [if_neg Bool.false_ne_true, if_neg Bool.false_ne_true]
    dsimp only
    by_cases h1 : (splitSlash p.data).length = 1
    · rw [if_pos h1, if_pos h1]
    · rw [if_neg h1, if_neg h1, rootLoop_nil_eq]
      cases hd : ((splitSlash p.data).dropLast.takeWhile (fun q => !hasMetaL q)).dropWhile
          List.isEmpty with
      | nil => simp [hd]
      | cons q qs =>
        have hq : q.isEmpty = false := dropWhileHeadFalse List.isEmpty _ q qs hd
        have hne : joinFromL q qs ≠ [] := joinFromL_ne_nil q qs (by
          cases q with
          | nil => simp at hq
          | cons c cs => simp)
        simp [hne]

/-! The claims. -/

/-- C1: when a negation pattern precedes an inclusion pattern, a path
removed by the negation and later (re-)introduced by the inclusion IS
present in Glob's final result set: negation is a point-in-time removal of
currently-present entries only, not a standing filter applied to later
insertions.  Stated for any two-pattern run: the inclusion pattern is
processed after the negation, and any walked file matching it ends up in
the output. -/
theorem C1_negation_point_in_time_removal (walk : String → Except String (List FileAsset))
    (p1 g2 : String) (r1 r2 : Regex) (assets : List FileAsset) (a : FileAsset)
    (hb1 : strHasPre p1 "!" = true) (hc1 : Globexp (strTail p1) = some r1)
    (hb2 : strHasPre g2 "!" = false) (hc2 : Globexp g2 = some r2)
    (hw : walk (patternRoot g2) = .ok assets) (ha : a ∈ assets)
    (hm : rmatch r2 a.Path = true) :
    ∃ out rs, Glob walk [p1, g2] = .ok (out, rs) ∧ a.Path ∈ out.map FileAsset.Path := by
  have hroot : patternRoot g2 ≠ "" := patternRoot_nonempty g2 hb2
  have h1 : globStepGen patternRoot walk { m := [], regexps := [] } p1
      = .ok { m := [], regexps := [{ Regexp := r1, Negate := true }] } := by
    rw [globStepGen_neg patternRoot walk _ p1 r1 hb1 hc1]
    simp [removeMatches]
  have h2 : globStepGen patternRoot walk
        { m := [], regexps := [{ Regexp := r1, Negate := true }] } g2
      = .ok { m := insertMatches r2 (patternRoot g2) [] assets,
              regexps := [{ Regexp := r1, Negate := true },
                          { Regexp := r2, Negate := false }] } :=
    globStepGen_pos patternRoot walk _ g2 r2 assets hb2 hc2 hroot hw
  have hsteps : globSteps patternRoot walk [p1, g2] { m := [], regexps := [] }
      = .ok { m := insertMatches r2 (patternRoot g2) [] assets,
              regexps := [{ Regexp := r1, Negate := true },
                          { Regexp := r2, Negate := false }] } := by
    rw [globSteps_cons, h1]
    simp only [Except.bind]
    rw [globSteps_cons, h2]
    simp [globSteps_nil, Except.bind]
  obtain ⟨v, hv⟩ := insertMatches_present r2 (patternRoot g2) a assets [] ha hm
  have hvm : (a.Path, some v) ∈ insertMatches r2 (patternRoot g2) [] assets :=
    mapLookup_mem _ _ _ hv
  have hpv : PathInv (insertMatches r2 (patternRoot g2) [] assets) :=
    pathInv_insertMatches _ _ _ _ pathInv_nil
  refine ⟨collectKeys (insertMatches r2 (patternRoot g2) [] assets),
          [{ Regexp := r1, Negate := true }, { Regexp := r2, Negate := false }], ?_, ?_⟩
  · unfold Glob GlobGen
    rw [hsteps]
  · exact List.mem_map.mpr ⟨v, mem_collectKeys _ _ _ hvm, hpv a.Path v hvm⟩

/-- Witness for C1 at the spec's own example: against a tree containing
vendor/keep.go, the patterns negation-first, inclusion-second still yield
vendor/keep.go in the result set. -/
theorem C1_negation_point_in_time_removal_witness :
    ∃ out rs, Glob walkVendorTree ["!vendor/**", "vendor/keep.go"] = .ok (out, rs) ∧
      "vendor/keep.go" ∈ out.map FileAsset.Path :=
  C1_negation_point_in_time_removal walkVendorTree "!vendor/**" "vendor/keep.go"
    ((Globexp "vendor/**").getD .eps) ((Globexp "vendor/keep.go").getD .eps)
    [{ Path := "vendor/keep.go", PatternRoot := "" }]
    { Path := "vendor/keep.go", PatternRoot := "" }
    rfl rfl rfl rfl rfl (List.mem_cons_self _ _) rfl

/-- C2 counterexample: a path tombstoned by a negation is NOT excluded from
the final output when a later inclusion pattern matches it again.  Running
the patterns x.go, !x.go, x.go against a tree holding x.go first inserts
the path, then tombstones it, then re-inserts it, and the final output
contains it. -/
theorem C2_tombstone_counterexample :
    (Glob walkXgo ["x.go", "!x.go", "x.go"]).toOption.map
        (fun pr => pr.1.map FileAsset.Path) = some ["x.go"] := rfl

/-- C2 amended: a tombstoned path is excluded from the final output
provided no inclusion pattern processed after the negation matches it again
(here: the negation is the last pattern); a later matching inclusion
re-introduces the path. -/
theorem C2_tombstone_amended (walk : String → Except String (List FileAsset))
    (ps : List String) (pn : String) (re : Regex) (out : List FileAsset)
    (rs : List RegexpInfo) (hb : strHasPre pn "!" = true)
    (hc : Globexp (strTail pn) = some re) (hg : Glob walk (ps ++ [pn]) = .ok (out, rs)) :
    ∀ a ∈ out, rmatch re a.Path = false := by
  intro a ha
  unfold Glob GlobGen at hg
  cases hs : globSteps patternRoot walk ps { m := [], regexps := [] } with
  | error e =>
    rw [globSteps_append, hs] at hg
    simp [Except.bind] at hg
  | ok st =>
    rw [globSteps_append, hs] at hg
    simp only [Except.bind] at hg
    rw [globSteps_cons, globStepGen_neg patternRoot walk st pn re hb hc] at hg
    simp only [Except.bind, globSteps_nil] at hg
    simp only [Except.ok.injEq, Prod.mk.injEq] at hg
    obtain ⟨hout, hrs⟩ := hg
    subst hout
    obtain ⟨k, hk⟩ := collectKeys_mem _ a ha
    obtain ⟨hmem, hfalse⟩ := mem_removeMatches re st.m k a hk
    have hpi : PathInv st.m := pathInv_globSteps patternRoot walk ps _ st pathInv_nil hs
    rw [hpi k a hmem]
    exact hfalse

/-- Witness for the amended C2: running star-dot-go then the negation of
x.go against a tree holding x.go and main.go leaves main.go in the output,
and the theorem yields that the surviving entry does not match the final
negation. -/
theorem C2_tombstone_amended_witness :
    rmatch ((Globexp "x.go").getD .eps)
      ({ Path := "main.go", PatternRoot := "./" } : FileAsset).Path = false :=
  C2_tombstone_amended walkTwoFiles ["*.go"] "!x.go" ((Globexp "x.go").getD .eps)
    ((Glob walkTwoFiles ["*.go", "!x.go"]).toOption.getD ([], [])).1
    ((Glob walkTwoFiles ["*.go", "!x.go"]).toOption.getD ([], [])).2
    rfl rfl rfl { Path := "main.go", PatternRoot := "./" } (by decide)

/-- C3 counterexample: Globexp does fail on malformed glob syntax.  An
unbalanced open bracket, open brace or close brace compiles to the invalid
regular-expression pattern open-bracket, open-paren or close-paren between
the anchors, and regexp.MustCompile panics (modelled as none). -/
theorem C3_globexp_counterexample :
    Globexp "[" = none ∧ Globexp "\x7b" = none ∧ Globexp "\x7d" = none :=
  ⟨rfl, rfl, rfl⟩

/-- C3 amended: the scanner itself never fails — for every input string it
completes and emits a pattern anchored with a leading caret and a trailing
dollar — but the emitted pattern may be an invalid regular expression (for
an unbalanced brace or bracket), and then the regexp compilation step
panics, so Globexp as a whole is not total. -/
theorem C3_globexp_amended (g : String) :
    ∃ body, globexpTokens g = RTok.caret :: (body ++ [RTok.dollar]) :=
  ⟨globLoop g.data false, rfl⟩

/-- C4: the claim (and the doc comment at glob.go:112, and the spec table)
say the question mark matches exactly one NON-SEPARATOR character, but the
code compiles it to the dot metacharacter, which matches the separator:
the matcher compiled from a?b does match a/b. -/
theorem C4_question_mark_separator_bug :
    ∃ r, Globexp "a?b" = some r ∧ rmatch r "a/b" = true :=
  ⟨(Globexp "a?b").getD .eps, rfl, rfl⟩

/-- C5: a bare star matches any run of non-separator characters and never
crosses the separator: the matcher compiled from *.go matches main.go,
does not match sub/main.go, matches every slash-free run followed by .go,
and no string it matches contains a slash. -/
theorem C5_star_non_separator :
    (Globexp "*.go").isSome = true ∧
    rmatch ((Globexp "*.go").getD .eps) "main.go" = true ∧
    rmatch ((Globexp "*.go").getD .eps) "sub/main.go" = false ∧
    (∀ s : List Char, (∀ c ∈ s, c ≠ '/') →
      rmatchL ((Globexp "*.go").getD .eps) (s ++ ".go".data) = true) ∧
    (∀ s : List Char, rmatchL ((Globexp "*.go").getD .eps) s = true → '/' ∉ s) := by
  have hast : (Globexp "*.go").getD .eps = .cat (.star clsNoSlash) tailDotGo := rfl
  refine ⟨rfl, rfl, rfl, ?_, ?_⟩
  · rw [hast]
    intro s hs
    induction s with
    | nil => rfl
    | cons c s ih =>
      have hc : c ≠ '/' := hs c (List.mem_cons_self _ _)
      have hs2 : ∀ x ∈ s, x ≠ '/' := fun x hx => hs x (List.mem_cons_of_mem _ hx)
      have hcls : rderiv clsNoSlash c = .eps := by
        simp [clsNoSlash, rderiv, classMatch, itemMatch, hc]
      rw [List.cons_append, rmatchL_cons]
      have hder : rderiv (Regex.cat (.star clsNoSlash) tailDotGo) c =
          .alt (.cat (.cat .eps (.star clsNoSlash)) tailDotGo) (rderiv tailDotGo c) := by
        simp [clsNoSlash, rderiv, nullable, classMatch, itemMatch, hc]
      rw [hder, rmatchL_alt]
      have heq : rmatchL (.cat (.cat .eps (.star clsNoSlash)) tailDotGo) (s ++ ".go".data)
          = rmatchL (.cat (.star clsNoSlash) tailDotGo) (s ++ ".go".data) :=
        rmatchL_cat_congr _ _ _ (fun t => rmatchL_cat_eps _ t) _
      rw [heq, ih hs2]
      rfl
  · rw [hast]
    intro s hm
    exact rejectsChar_not_mem '/' _ s (by decide) hm

/-- Witness for C5 at concrete inputs: the slash-free run main followed by
.go is matched, and the matched string main.go indeed contains no slash. -/
theorem C5_star_non_separator_witness :
    rmatchL ((Globexp "*.go").getD .eps) ("main".data ++ ".go".data) = true ∧
    '/' ∉ "main.go".data :=
  ⟨C5_star_non_separator.2.2.2.1 "main".data (by decide),
   C5_star_non_separator.2.2.2.2 "main.go".data rfl⟩

/-- C6: on a pattern starting with the negation marker, the pattern-loop
step strips the marker, compiles the remainder, records the matcher with
Negate true, sets exactly the currently-present entries whose full path
string matches to the nil tombstone, and performs no filesystem walk (the
result is the same for any walker). -/
theorem C6_negation_step (walk walk2 : String → Except String (List FileAsset))
    (st : GlobState) (p : String) (re : Regex) (hb : strHasPre p "!" = true)
    (hc : Globexp (strTail p) = some re) :
    globStep walk st p =
      .ok { m := removeMatches re st.m,
            regexps := st.regexps ++ [{ Regexp := re, Negate := true }] } ∧
    globStep walk st p = globStep walk2 st p := by
  constructor
  · exact globStepGen_neg patternRoot walk st p re hb hc
  · rw [show globStep walk st p = globStepGen patternRoot walk st p from rfl,
        show globStep walk2 st p = globStepGen patternRoot walk2 st p from rfl,
        globStepGen_neg patternRoot walk st p re hb hc,
        globStepGen_neg patternRoot walk2 st p re hb hc]

/-- Witness for C6 on a concrete state with two present entries, the
pattern bang-vendor-double-star, and two different walkers. -/
theorem C6_negation_step_witness :
    globStep walkEmptyFS stDemo "!vendor/**" =
      .ok { m := removeMatches ((Globexp "vendor/**").getD .eps) stDemo.m,
            regexps := stDemo.regexps ++
              [{ Regexp := (Globexp "vendor/**").getD .eps, Negate := true }] } ∧
    globStep walkEmptyFS stDemo "!vendor/**" = globStep walkXgo stDemo "!vendor/**" :=
  C6_negation_step walkEmptyFS walkXgo stDemo "!vendor/**"
    ((Globexp "vendor/**").getD .eps) rfl rfl

/-- C7 counterexample: patternRoot is NOT the slash-joined accumulation of
the leading metacharacter-free segments.  For a/b/c (no metacharacter at
all) the claim's reading yields a/b/c but the code returns a/b (the last
segment is never part of the root); for /a/star.go the claim's reading
yields /a but the code returns a (segments accumulated while the root is
still empty replace it, dropping leading empty segments). -/
theorem C7_pattern_root_counterexample :
    patternRoot "a/b/c" = "a/b" ∧ specRootClaim "a/b/c" = "a/b/c" ∧
    patternRoot "/a/*.go" = "a" ∧ specRootClaim "/a/*.go" = "/a" :=
  ⟨rfl, rfl, rfl, rfl⟩

/-- C7 amended: for a non-negation pattern, no slash means root "./";
otherwise the root is the slash-joined accumulation of the
metacharacter-free leading segments drawn from all but the last segment,
with empty segments before the first non-empty one dropped, and "." when
nothing is accumulated (in particular when the first considered segment
contains a metacharacter); for a/b/star.go the root is a/b. -/
theorem C7_pattern_root_amended :
    (∀ p : String, patternRoot p = inferRootAmended p) ∧
    patternRoot "a/b/*.go" = "a/b" :=
  ⟨patternRoot_eq_inferRootAmended, rfl⟩

/-- C8: if root inference yields an empty root for a non-negation pattern,
the whole resolution aborts immediately with the fatal error naming the
offending pattern — later patterns are not processed and the pattern is not
skipped.  Stated over the root-inference parameter of GlobGen, since the
real patternRoot never returns an empty root for a non-negation pattern
(see C9). -/
theorem C8_empty_root_fail_fast (rootFn : String → String)
    (walk : String → Except String (List FileAsset)) (ps1 ps2 : List String)
    (p : String) (st : GlobState) (re : Regex)
    (h1 : globSteps rootFn walk ps1 { m := [], regexps := [] } = .ok st)
    (hb : strHasPre p "!" = false) (hc : Globexp p = some re) (h0 : rootFn p = "") :
    GlobGen rootFn walk (ps1 ++ p :: ps2) = .error (.rootPanic p) := by
  have hstep : globStepGen rootFn walk st p = .error (.rootPanic p) := by
    simp [globStepGen, hb, hc, h0]
  have hall : globSteps rootFn walk (ps1 ++ p :: ps2) { m := [], regexps := [] }
      = .error (.rootPanic p) := by
    rw [globSteps_append, h1]
    simp only [Except.bind]
    rw [globSteps_cons, hstep]
    simp [Except.bind]
  unfold GlobGen
  rw [hall]

/-- Witness for C8: with a root inference that returns the empty root, the
run aborts at the first pattern with the error naming it, and the second
pattern is never reached. -/
theorem C8_empty_root_fail_fast_witness :
    GlobGen rootFnEmpty walkEmptyFS ["a", "b"] = .error (.rootPanic "a") :=
  C8_empty_root_fail_fast rootFnEmpty walkEmptyFS [] ["b"] "a"
    { m := [], regexps := [] } ((Globexp "a").getD .eps) rfl rfl rfl rfl

/-- C9: for every pattern that does not begin with the negation marker,
patternRoot returns a non-empty string, and consequently Glob (with the
real root inference) never aborts with the empty-root configuration
error. -/
theorem C9_root_never_empty :
    (∀ p : String, strHasPre p "!" = false → patternRoot p ≠ "") ∧
    (∀ (walk : String → Except String (List FileAsset)) (ps : List String) (q : String),
      Glob walk ps ≠ .error (.rootPanic q)) := by
  refine ⟨patternRoot_nonempty, ?_⟩
  intro walk ps q hcon
  unfold Glob GlobGen at hcon
  cases hs : globSteps patternRoot walk ps { m := [], regexps := [] } with
  | error e =>
    rw [hs] at hcon
    simp only [Except.error.injEq] at hcon
    exact globSteps_no_rootPanic walk ps _ q (hcon ▸ hs)
  | ok st =>
    rw [hs] at hcon
    simp at hcon

/-- Witness for C9 at concrete inputs: a non-negation pattern with a root,
and a concrete Glob run that does not raise the empty-root error. -/
theorem C9_root_never_empty_witness :
    patternRoot "sub/*.go" ≠ "" ∧
    Glob walkEmptyFS ["*.go"] ≠ .error (.rootPanic "*.go") :=
  ⟨C9_root_never_empty.1 "sub/*.go" rfl,
   C9_root_never_empty.2 walkEmptyFS ["*.go"] "*.go"⟩

/-- C10: the zero-or-more-directories expansion only matches intervening
directory segments built from word characters, dots and hyphens: the
matcher compiled from double-star-slash-x matches a.b/x but rejects
a b/x and c+d/x, and more generally every character of any string it
accepts is a word character, a dot, a hyphen, the separator, or the literal
x of the pattern. -/
theorem C10_zom_directories_charset :
    ∃ r, Globexp "**/x" = some r ∧ rmatch r "a.b/x" = true ∧ rmatch r "a b/x" = false ∧
      rmatch r "c+d/x" = false ∧
      ∀ (s : List Char) (c : Char), rmatchL r s = true → c ∈ s →
        (isWordChar c = true ∨ c = '.' ∨ c = '-' ∨ c = '/' ∨ c = 'x') := by
  refine ⟨(Globexp "**/x").getD .eps, rfl, rfl, rfl, rfl, ?_⟩
  intro s c hm hc
  by_contra hcon
  push_neg at hcon
  obtain ⟨h1, h2, h3, h4, h5⟩ := hcon
  have h1b : isWordChar c = false := by simpa using h1
  have hrej : rejectsChar c ((Globexp "**/x").getD .eps) = true := by
    show rejectsChar c
      (.cat (.cat (.star (.cat (.cat clsWDH (.star clsWDH)) (.cat (.lit '/') .eps))) .eps)
        (.cat (.lit 'x') .eps)) = true
    simp [clsWDH, rejectsChar, classMatch, itemMatch, h1b, h2, h3, h4, h5]
  exact rejectsChar_not_mem c _ s hrej hm hc

/-- Witness for C10: instantiating the general character restriction at the
accepted string a.b/x and its character b. -/
theorem C10_zom_directories_charset_witness :
    isWordChar 'b' = true ∨ 'b' = '.' ∨ 'b' = '-' ∨ 'b' = '/' ∨ 'b' = 'x' := by
  obtain ⟨r, hr, h1, h2, h3, hgen⟩ := C10_zom_directories_charset
  exact hgen "a.b/x".data 'b' h1 (by decide)
